import Mathlib

set_option maxRecDepth 1000000

/-!
Verification development for the polygeohasher repository.

The development shallowly embeds the two core algorithms of the package:

* `get_optimized_geohashes` (src/polygeohasher/utils.py) — the cell-set
  optimizer that merges sibling geohash groups into their parent;
* `polygon_to_geohashes` (src/polygeohasher/converters.py) — the BFS
  rasterizer, embedded over an abstract cell type with the geometric
  predicates as parameters;
* `geohash_optimizer` (src/polygeohasher/core.py) — the row-level
  explode / drop-duplicates pipeline around the optimizer.

Geohash codes are strings over the base-32 alphabet; we embed them as
`List Char` (`Code`).  Python set iteration order inside one optimizer
cycle is unspecified; the embedding processes the working set as a list
in list order, so every concrete iteration order of the Python sets is a
particular instantiation of the embedding.  `percentage_error` is
embedded as an exact rational; at the parameter values used by the
claims (0, 5, 10) the floating-point and rational comparisons agree.
-/

namespace Polygeohasher

/-- A geohash code: a string over the base-32 alphabet, embedded as a
list of characters.  Its length is its precision. -/
abbrev Code := List Char

/-- The base-32 alphabet (utils.py line 12). -/
def BASE32 : List Char := "0123456789bcdefghjkmnpqrstuvwxyz".toList

/-- All 32 child codes of a parent: `[geohash_1up + i for i in BASE32]`
(utils.py line 82). -/
def childrenOf (p : Code) : List Code := BASE32.map (fun c => p ++ [c])

/-- The threshold comparison `len(intersect) >= 32 * (1 - percentage_error / 100)`
(utils.py line 87), with denominators cleared so that the comparison is
integer arithmetic (the kernel cannot evaluate `ℚ` operations).
`thresholdOK_iff` below proves it equal to the textbook rational form. -/
def thresholdOK (err : ℚ) (count : ℕ) : Bool :=
  decide ((32 : ℤ) * (100 * err.den - err.num) ≤ 100 * (count : ℤ) * err.den)

/-- `thresholdOK` is exactly the source's comparison
`count >= 32 * (1 - err / 100)` over exact rationals. -/
theorem thresholdOK_iff (err : ℚ) (count : ℕ) :
    thresholdOK err count = true ↔ (32 : ℚ) * (1 - err / 100) ≤ (count : ℚ) := by
  have hd : (0 : ℚ) < (err.den : ℚ) := by exact_mod_cast err.pos
  have hnum : (err.num : ℚ) = err * (err.den : ℚ) := by
    have hne : (err.den : ℚ) ≠ 0 := ne_of_gt hd
    have h2 : err * (err.den : ℚ) = ((err.num : ℚ) / (err.den : ℚ)) * (err.den : ℚ) := by
      rw [Rat.num_div_den]
    rw [h2, div_mul_cancel₀ _ hne]
  rw [thresholdOK, decide_eq_true_iff]
  rw [show ((32 : ℤ) * (100 * err.den - err.num) ≤ 100 * (count : ℤ) * err.den) ↔
      ((32 : ℚ) * (100 * (err.den : ℚ) - (err.num : ℚ)) ≤ 100 * (count : ℚ) * (err.den : ℚ)) by
    exact_mod_cast Iff.rfl]
  rw [hnum]
  constructor
  · intro h
    nlinarith
  · intro h
    nlinarith

/-- Merge condition of the optimizer (utils.py lines 82-89): the set of
combinations `geohash_1up + i` is a subset of the working set, or the
number of combinations present is at least `32 * (1 - percentage_error/100)`
and the cycle index is `< 1`. -/
def mergeCond (S : List Code) (percentageError : ℚ) (noOfCycle : ℕ) (p : Code) : Bool :=
  (childrenOf p).all (fun g => S.contains g) ||
    (thresholdOK percentageError ((childrenOf p).filter (fun g => S.contains g)).length &&
      decide (noOfCycle < 1))

/-- The mutable state built up during one cycle of the optimizer:
`geohash_processed_check`, `processed_geohash_set` and
`len_desired_reached` (utils.py lines 43-44, 50). -/
structure CycleState where
  check : List Code
  processed : List Code
  flag : Bool
deriving Repr, DecidableEq

/-- The code emitted on the no-merge path (utils.py lines 98-104): under
forced upscale a code of length at least `smallest_gh_size` is truncated
to `smallest_gh_size` characters, otherwise it is kept unchanged. -/
def emitCode (smallest : ℕ) (forced : Bool) (g : Code) : Code :=
  if smallest ≤ g.length ∧ forced = true then g.take smallest else g

/-- Processing of a single code inside one cycle (utils.py lines 66-104):
update the `len_desired_reached` flag, then, when the code is at least
`largest_gh_size` long and neither it nor its parent has been handled
this cycle, either merge it into its parent or emit it via `emitCode`. -/
def stepCode (largest smallest : ℕ) (err : ℚ) (forced : Bool)
    (S : List Code) (cyc : ℕ) (st : CycleState) (g : Code) : CycleState :=
  let flag' := (g.length == largest) || st.flag
  if largest ≤ g.length then
    let p := g.dropLast
    if ¬ p ∈ st.check ∧ ¬ g ∈ st.check then
      if mergeCond S err cyc p then
        ⟨st.check.insert p, st.processed.insert p, flag'⟩
      else
        ⟨st.check.insert g, st.processed.insert (emitCode smallest forced g), flag'⟩
    else ⟨st.check, st.processed, flag'⟩
  else ⟨st.check, st.processed, flag'⟩

/-- One full cycle of the optimizer (utils.py lines 61-104): fold
`stepCode` over the working set starting from empty check/processed
sets and the incoming flag. -/
def runCycle (largest smallest : ℕ) (err : ℚ) (forced : Bool)
    (S : List Code) (cyc : ℕ) (flagIn : Bool) : CycleState :=
  S.foldl (stepCode largest smallest err forced S cyc) ⟨[], [], flagIn⟩

/-- The cycle budget `cutoff` (utils.py lines 53-58).  Kept as an
integer because `smallest - largest` may be negative in Python. -/
def cutoff (largest smallest inputLevel : ℕ) : ℤ :=
  if smallest < inputLevel then
    ((inputLevel : ℤ) - (smallest : ℤ)) + ((smallest : ℤ) - (largest : ℤ))
  else (smallest : ℤ) - (largest : ℤ)

/-- The optimizer's `while flag` loop (utils.py lines 60-110): run one
cycle, stop when the flag is set or the cycle count reaches `cutoff`,
otherwise continue with the processed set.  The structural `fuel`
argument is initialised to `(cutoff ..).toNat`; the loop condition
`cutoff ≤ cyc + 1` is always true once `fuel` reaches zero, so the
fuel never truncates the Python loop (which always terminates for the
same reason).  Returns the final working set together with the number
of executed cycles (`no_of_cycle`). -/
def optLoop (largest smallest inputLevel : ℕ) (err : ℚ) (forced : Bool) :
    ℕ → ℕ → Bool → List Code → List Code × ℕ
  | fuel, cyc, flagIn, S =>
    let st := runCycle largest smallest err forced S cyc flagIn
    if st.flag = true ∨ cutoff largest smallest inputLevel ≤ ((cyc : ℤ) + 1) then
      (st.processed, cyc + 1)
    else
      match fuel with
      | 0 => (st.processed, cyc + 1)
      | fuel' + 1 =>
        optLoop largest smallest inputLevel err forced fuel' (cyc + 1) st.flag st.processed

/-- `get_optimized_geohashes` (utils.py lines 15-113).  Returns `none`
for the Python sentinel `False` on an empty input list; otherwise the
final code list (the Python function's `list(set(...))`) paired with
the number of executed cycles. -/
def get_optimized_geohashes (geohashes : List Code)
    (largest smallest inputLevel : ℕ) (err : ℚ) (forced : Bool) :
    Option (List Code × ℕ) :=
  if geohashes = [] then none
  else some (optLoop largest smallest inputLevel err forced
    (cutoff largest smallest inputLevel).toNat 0 false geohashes.dedup)

/-- The optimizer's resulting code set (first component of
`get_optimized_geohashes`). -/
def optimize (geohashes : List Code) (largest smallest inputLevel : ℕ)
    (err : ℚ) (forced : Bool) : Option (List Code) :=
  (get_optimized_geohashes geohashes largest smallest inputLevel err forced).map Prod.fst

/-- The number of cycles the optimizer executes (second component of
`get_optimized_geohashes`). -/
def cyclesRun (geohashes : List Code) (largest smallest inputLevel : ℕ)
    (err : ℚ) (forced : Bool) : Option ℕ :=
  (get_optimized_geohashes geohashes largest smallest inputLevel err forced).map Prod.snd

/-! The BFS rasterizer `polygon_to_geohashes` (converters.py lines 42-104),
embedded over an abstract finite cell type.  The geometry library is an
external collaborator, so the geometric tests appear as parameters:
`pre` is the envelope pre-filter (`envelope.contains` when `inner=True`,
`envelope.intersects` when `inner=False`), `acc` the precise polygon
test (`polygon.contains` resp. `polygon.intersects`), `nbrs` the
geohash-neighbor function and `seed` the centroid cell. -/

/-- State of the rasterizer loop: the FIFO work queue
`testing_geohashes` and the two disjoint classification sets
`inner_geohashes` / `outer_geohashes`. -/
structure BfsState (Cell : Type) where
  queue : List Cell
  innerSet : Finset Cell
  outerSet : Finset Cell

/-- The rasterizer's `while not testing_geohashes.empty()` loop
(converters.py lines 71-102): pop a cell; skip it when already
classified; otherwise, when the envelope pre-filter passes, classify it
by the precise test and enqueue its not-yet-classified neighbors; when
the pre-filter fails, drop it unclassified.  Terminates because each
classification shrinks the set of unclassified cells and every other
step shrinks the queue. -/
def polygonToGeohashesAux {Cell : Type} [DecidableEq Cell] [Fintype Cell]
    (nbrs : Cell → List Cell) (pre acc : Cell → Bool) :
    BfsState Cell → BfsState Cell
  | ⟨[], inn, out⟩ => ⟨[], inn, out⟩
  | ⟨c :: rest, inn, out⟩ =>
    if h : c ∈ inn ∪ out then
      polygonToGeohashesAux nbrs pre acc ⟨rest, inn, out⟩
    else if pre c then
      if acc c then
        polygonToGeohashesAux nbrs pre acc
          ⟨rest ++ (nbrs c).filter (fun n => decide (n ∉ insert c inn ∪ out)), insert c inn, out⟩
      else
        polygonToGeohashesAux nbrs pre acc
          ⟨rest ++ (nbrs c).filter (fun n => decide (n ∉ inn ∪ insert c out)), inn, insert c out⟩
    else
      polygonToGeohashesAux nbrs pre acc ⟨rest, inn, out⟩
termination_by s => (Fintype.card Cell - (s.innerSet ∪ s.outerSet).card, s.queue.length)
decreasing_by
  · apply Prod.Lex.right
    simp
  · apply Prod.Lex.left
    have hlt : (inn ∪ out).card < Fintype.card Cell :=
      Finset.card_lt_card (Finset.ssubset_univ_iff.mpr (fun habs => h (habs ▸ Finset.mem_univ c)))
    rw [Finset.insert_union, Finset.card_insert_of_not_mem h]
    omega
  · apply Prod.Lex.left
    have hlt : (inn ∪ out).card < Fintype.card Cell :=
      Finset.card_lt_card (Finset.ssubset_univ_iff.mpr (fun habs => h (habs ▸ Finset.mem_univ c)))
    rw [Finset.union_insert, Finset.card_insert_of_not_mem h]
    omega
  · apply Prod.Lex.right
    simp

/-- `polygon_to_geohashes` (converters.py lines 42-104): run the BFS
from the seed (centroid) cell with empty classification sets and return
`inner_geohashes`. -/
def polygon_to_geohashes {Cell : Type} [DecidableEq Cell] [Fintype Cell]
    (nbrs : Cell → List Cell) (pre acc : Cell → Bool) (seed : Cell) : Finset Cell :=
  (polygonToGeohashesAux nbrs pre acc ⟨[seed], ∅, ∅⟩).innerSet

/-- Cells reachable from the seed by repeatedly stepping to a neighbor
of a cell that passes the envelope pre-filter.  This is the region the
BFS can explore: neighbors are enqueued exactly for cells whose
pre-filter passed. -/
inductive Reach {Cell : Type} (nbrs : Cell → List Cell) (pre : Cell → Bool) (seed : Cell) :
    Cell → Prop
  | refl : Reach nbrs pre seed seed
  | step {d n : Cell} : Reach nbrs pre seed d → pre d = true → n ∈ nbrs d → Reach nbrs pre seed n

/-- Loop invariant of the rasterizer BFS: classified cells passed the
pre-filter and sit in `innerSet`/`outerSet` according to the precise
test; everything classified or queued is reachable; neighbors of
classified cells are classified, queued, or fail the pre-filter; and
the seed is classified, queued, or fails the pre-filter. -/
def BfsInv {Cell : Type} [DecidableEq Cell] (nbrs : Cell → List Cell)
    (pre acc : Cell → Bool) (seed : Cell) (s : BfsState Cell) : Prop :=
  (∀ c ∈ s.innerSet, pre c = true ∧ acc c = true) ∧
  (∀ c ∈ s.outerSet, pre c = true ∧ acc c = false) ∧
  (∀ c ∈ s.innerSet ∪ s.outerSet, Reach nbrs pre seed c) ∧
  (∀ c ∈ s.queue, Reach nbrs pre seed c) ∧
  (∀ v ∈ s.innerSet ∪ s.outerSet, ∀ n ∈ nbrs v,
      n ∈ s.innerSet ∪ s.outerSet ∨ n ∈ s.queue ∨ pre n = false) ∧
  (seed ∈ s.innerSet ∪ s.outerSet ∨ seed ∈ s.queue ∨ pre seed = false)

/-! The row-level pipeline `geohash_optimizer` (core.py lines 70-146):
apply `get_optimized_geohashes` to each row's `geohash_list`, explode
the resulting column so each row holds a single value, and drop
duplicate values keeping the first occurrence (pandas
`drop_duplicates`).  A cell of the exploded column is `NaN` when the
optimizer returned an empty list, the scalar `False` when it returned
the empty-input sentinel, and a geohash otherwise. -/

/-- A value of the exploded `optimized_geohash_list` column. -/
inductive CellVal
  | na : CellVal
  | falseVal : CellVal
  | gh : Code → CellVal
deriving DecidableEq, Repr

/-- Pandas `explode` on one cell of the column: a list explodes into
one row per element, an empty list into a single `NaN` row, and the
scalar `False` (the optimizer's empty-input sentinel) stays one row. -/
def explodeCell (v : Option (List Code)) : List CellVal :=
  match v with
  | none => [CellVal.falseVal]
  | some [] => [CellVal.na]
  | some l => l.map CellVal.gh

/-- The exploded table (core.py line 144): one `(row data, value)` pair
per exploded element, in row order. -/
def explodeAll {α : Type} (rows : List (α × List Code))
    (largest smallest inputLevel : ℕ) (err : ℚ) (forced : Bool) : List (α × CellVal) :=
  rows.flatMap (fun r =>
    (explodeCell (optimize r.2 largest smallest inputLevel err forced)).map (fun v => (r.1, v)))

/-- Pandas `drop_duplicates` on the value column (core.py line 145):
keep a row only when its value has not been seen before. -/
def dropDuplicatesAux {α : Type} (seen : List CellVal) :
    List (α × CellVal) → List (α × CellVal)
  | [] => []
  | p :: rest =>
    if p.2 ∈ seen then dropDuplicatesAux seen rest
    else p :: dropDuplicatesAux (p.2 :: seen) rest

/-- `geohash_optimizer` (core.py lines 70-146): optimize each row's
geohash list, explode the column, and drop duplicate values keeping the
first occurrence. -/
def geohash_optimizer {α : Type} (rows : List (α × List Code))
    (largest smallest inputLevel : ℕ) (err : ℚ) (forced : Bool) : List (α × CellVal) :=
  dropDuplicatesAux [] (explodeAll rows largest smallest inputLevel err forced)

/-! Extensional descriptions of the cycle state after processing a
prefix `done` of the working set, used to characterise one optimizer
cycle.  `M` stands for the cycle's merge condition. -/

/-- Parents recorded by merges of codes in `done`. -/
def donePar (largest : ℕ) (M : Code → Bool) (done : List Code) (x : Code) : Prop :=
  ∃ g ∈ done, largest ≤ g.length ∧ M g.dropLast = true ∧ x = g.dropLast

/-- Codes of `done` recorded in the check set on the no-merge path. -/
def doneSelf (largest : ℕ) (M : Code → Bool) (done : List Code) (x : Code) : Prop :=
  ∃ g ∈ done, largest ≤ g.length ∧ M g.dropLast = false ∧ x = g

/-- Codes emitted by the no-merge path for codes in `done`. -/
def doneEmit (largest smallest : ℕ) (forced : Bool) (M : Code → Bool)
    (done : List Code) (x : Code) : Prop :=
  ∃ g ∈ done, largest ≤ g.length ∧ M g.dropLast = false ∧ x = emitCode smallest forced g

end Polygeohasher

namespace Polygeohasher

/-! Helper lemmas about the optimizer. -/

lemma contains_iff_mem (S : List Code) (x : Code) : S.contains x = true ↔ x ∈ S := by
  simp [List.contains]

lemma stepCode_flag (largest smallest : ℕ) (err : ℚ) (forced : Bool) (S : List Code)
    (cyc : ℕ) (st : CycleState) (g : Code) :
    (stepCode largest smallest err forced S cyc st g).flag = ((g.length == largest) || st.flag) := by
  simp only [stepCode]
  split <;> (try split) <;> (try split) <;> rfl

lemma foldl_flag (largest smallest : ℕ) (err : ℚ) (forced : Bool) (S : List Code) (cyc : ℕ)
    (l : List Code) :
    ∀ st : CycleState,
      (l.foldl (stepCode largest smallest err forced S cyc) st).flag
        = (st.flag || l.any (fun g => g.length == largest)) := by
  induction l with
  | nil => intro st; simp
  | cons g l ih =>
    intro st
    simp only [List.foldl_cons, List.any_cons]
    rw [ih, stepCode_flag]
    cases st.flag <;> cases hg : (g.length == largest) <;> simp

lemma runCycle_flag (largest smallest : ℕ) (err : ℚ) (forced : Bool) (S : List Code)
    (cyc : ℕ) (flagIn : Bool) :
    (runCycle largest smallest err forced S cyc flagIn).flag
      = (flagIn || S.any (fun g => g.length == largest)) :=
  foldl_flag largest smallest err forced S cyc S ⟨[], [], flagIn⟩

/-- Claim C3, counterexample: for the working set `{"9", "9q8"}` with
`largestSize = 1`, `smallestSize = inputPrecision = 3`, the optimizer
stops after one cycle (the budget is 2) even though the surviving code
`"9q8"` has length 3 ≠ 1: the flag was set by the single code `"9"` of
length 1, not by all codes reaching the target. -/
theorem claim_C3_counterexample :
    get_optimized_geohashes ["9".toList, "9q8".toList] 1 3 3 0 false
      = some ([['9', 'q', '8'], ['9']], 1) ∧
    (1 : ℤ) < cutoff 1 3 3 ∧ ¬ ("9q8".toList.length = 1) := by
  refine ⟨by decide, by decide, by decide⟩

/-- Claim C3, amended: the "target reached" flag after a cycle is set
iff it was already set or SOME code (not every code) in the working set
at the cycle's start has length `largestSize`. -/
theorem claim_C3 (largest smallest : ℕ) (err : ℚ) (forced : Bool) (S : List Code)
    (cyc : ℕ) (flagIn : Bool) :
    (runCycle largest smallest err forced S cyc flagIn).flag = true
      ↔ (flagIn = true ∨ ∃ g ∈ S, g.length = largest) := by
  rw [runCycle_flag]
  simp [List.any_eq_true]

/-- Claim C2: the merge condition is exactly "all 32 siblings present,
or at least `32 * (1 - errorPercent/100)` of them present on the first
cycle"; concretely, 29 of 32 siblings of `"9q8"` merge into `"9q8"`
with `errorPercent = 10` and stay unmerged with `errorPercent = 5`. -/
theorem claim_C2 :
    (∀ (S : List Code) (err : ℚ) (cyc : ℕ) (p : Code),
        mergeCond S err cyc p = true ↔
          ((∀ x ∈ childrenOf p, x ∈ S) ∨
            ((32 : ℚ) * (1 - err / 100) ≤
                (((childrenOf p).filter (fun g => S.contains g)).length : ℚ) ∧ cyc = 0))) ∧
    optimize ((BASE32.take 29).map (fun c => "9q8".toList ++ [c])) 3 4 4 10 false
      = some ["9q8".toList] ∧
    optimize ((BASE32.take 29).map (fun c => "9q8".toList ++ [c])) 3 4 4 5 false
      = some (((BASE32.take 29).map (fun c => "9q8".toList ++ [c])).reverse) := by
  refine ⟨?_, by decide, by decide⟩
  intro S err cyc p
  rw [mergeCond, Bool.or_eq_true, Bool.and_eq_true, List.all_eq_true, thresholdOK_iff]
  simp [contains_iff_mem, Nat.lt_one_iff]

/-- Claim C5: the code performs no validation of
`largest_gh_size <= smallest_gh_size`.  At the violating input
`largestSize = 5 > smallestSize = 3` it silently returns the normal
(empty) result after one cycle instead of failing with `InvalidRange`
(contradicting core.py's own docstring, which promises a `ValueError`
for this violation). -/
theorem claim_C5 :
    get_optimized_geohashes ["9q8w".toList] 5 3 4 10 false = some ([], 1) := by
  decide

/-- Claim C7: on the no-merge path the emitted code is the truncation
to exactly `smallestSize` characters when forced upscale is on and the
code is at least that long, and the unchanged code otherwise. -/
theorem claim_C7 (largest smallest : ℕ) (err : ℚ) (forced : Bool) (S : List Code) (cyc : ℕ)
    (st : CycleState) (g : Code)
    (hlen : largest ≤ g.length)
    (hp : g.dropLast ∉ st.check) (hg : g ∉ st.check)
    (hm : mergeCond S err cyc g.dropLast = false) :
    (stepCode largest smallest err forced S cyc st g).processed
      = st.processed.insert
          (if forced = true ∧ smallest ≤ g.length then g.take smallest else g) ∧
    (forced = true → smallest ≤ g.length → (g.take smallest).length = smallest) := by
  constructor
  · simp only [stepCode, emitCode]
    rw [if_pos hlen, if_pos ⟨hp, hg⟩, if_neg (by simp [hm])]
    rcases Decidable.em (smallest ≤ g.length ∧ forced = true) with hc | hc
    · rw [if_pos hc, if_pos ⟨hc.2, hc.1⟩]
    · rw [if_neg hc, if_neg (fun h => hc ⟨h.2, h.1⟩)]
  · intro _ hs
    rw [List.length_take]
    exact min_eq_left hs

/-- Witness for claim C7 at a concrete no-merge input. -/
theorem claim_C7_witness :
    (stepCode 3 5 10 false ([] : List Code) 0 ⟨[], [], false⟩ "9q8w".toList).processed
      = (([] : List Code).insert
          (if false = true ∧ 5 ≤ "9q8w".toList.length then "9q8w".toList.take 5
           else "9q8w".toList)) ∧
    (false = true → 5 ≤ "9q8w".toList.length → ("9q8w".toList.take 5).length = 5) :=
  claim_C7 3 5 10 false [] 0 ⟨[], [], false⟩ "9q8w".toList (by decide) (by decide) (by decide)
    (by decide)

/-- Claim C9, counterexample: with
`largestSize = smallestSize = inputPrecision = 3` the cycle budget is
0, yet the optimizer executes one cycle (the loop is do-while). -/
theorem claim_C9_counterexample :
    cyclesRun ["9q8".toList] 3 3 3 10 false = some 1 ∧ ¬ ((1 : ℤ) ≤ cutoff 3 3 3) := by
  refine ⟨by decide, by decide⟩

lemma optLoop_cycles (largest smallest inputLevel : ℕ) (err : ℚ) (forced : Bool) :
    ∀ (fuel cyc : ℕ) (flagIn : Bool) (S : List Code),
      cyc + 1 ≤ (optLoop largest smallest inputLevel err forced fuel cyc flagIn S).2 ∧
      (optLoop largest smallest inputLevel err forced fuel cyc flagIn S).2
        ≤ max (cyc + 1) (cutoff largest smallest inputLevel).toNat := by
  intro fuel
  induction fuel with
  | zero =>
    intro cyc flagIn S
    simp only [optLoop]
    split
    · exact ⟨le_refl _, le_max_left _ _⟩
    · exact ⟨le_refl _, le_max_left _ _⟩
  | succ fuel ih =>
    intro cyc flagIn S
    simp only [optLoop]
    split
    · exact ⟨le_refl _, le_max_left _ _⟩
    · next hcond =>
      generalize runCycle largest smallest err forced S cyc flagIn = st at hcond ⊢
      obtain ⟨h1, h2⟩ := ih (cyc + 1) st.flag st.processed
      have hc : cyc + 2 ≤ (cutoff largest smallest inputLevel).toNat := by
        rcases not_or.mp hcond with ⟨_, hle⟩
        omega
      constructor
      · omega
      · calc (optLoop largest smallest inputLevel err forced fuel (cyc + 1) st.flag st.processed).2
            ≤ max (cyc + 1 + 1) (cutoff largest smallest inputLevel).toNat := h2
          _ = (cutoff largest smallest inputLevel).toNat := Nat.max_eq_right hc
          _ ≤ max (cyc + 1) (cutoff largest smallest inputLevel).toNat := le_max_right _ _

/-- Claim C9, amended: the optimizer always terminates, executing
between 1 and `max 1 cycleBudget` cycles: the loop is do-while, so one
cycle runs even when the budget is 0 or negative. -/
theorem claim_C9 (L : List Code) (largest smallest inputLevel : ℕ) (err : ℚ) (forced : Bool)
    (h : L ≠ []) :
    ∃ R n, get_optimized_geohashes L largest smallest inputLevel err forced = some (R, n) ∧
      1 ≤ n ∧ (n : ℤ) ≤ max 1 (cutoff largest smallest inputLevel) := by
  unfold get_optimized_geohashes
  rw [if_neg h]
  refine ⟨_, _, rfl, ?_, ?_⟩
  · exact (optLoop_cycles largest smallest inputLevel err forced _ 0 false L.dedup).1
  · have hb := (optLoop_cycles largest smallest inputLevel err forced
      (cutoff largest smallest inputLevel).toNat 0 false L.dedup).2
    have hcast : ((max (0 + 1) (cutoff largest smallest inputLevel).toNat : ℕ) : ℤ)
        = max 1 (cutoff largest smallest inputLevel) := by
      rw [Nat.cast_max]
      rcases le_total (cutoff largest smallest inputLevel) 0 with hc | hc
      · rw [max_eq_left, max_eq_left] <;> omega
      · rw [Int.toNat_of_nonneg hc]
        norm_num
    calc ((optLoop largest smallest inputLevel err forced
            (cutoff largest smallest inputLevel).toNat 0 false L.dedup).2 : ℤ)
        ≤ ((max (0 + 1) (cutoff largest smallest inputLevel).toNat : ℕ) : ℤ) := by
          exact_mod_cast hb
      _ = max 1 (cutoff largest smallest inputLevel) := hcast

/-- Witness for claim C9 at a concrete input. -/
theorem claim_C9_witness :
    ∃ R n, get_optimized_geohashes ["9q8".toList] 3 4 4 10 false = some (R, n) ∧
      1 ≤ n ∧ (n : ℤ) ≤ max 1 (cutoff 3 4 4) :=
  claim_C9 ["9q8".toList] 3 4 4 10 false (by decide)

/-! Helper lemmas for claim C1 (merge completeness). -/

lemma childrenOf_dropLast {p g : Code} (h : g ∈ childrenOf p) : g.dropLast = p := by
  obtain ⟨c, _, rfl⟩ := List.mem_map.mp h
  exact List.dropLast_concat

lemma childrenOf_length {p g : Code} (h : g ∈ childrenOf p) : g.length = p.length + 1 := by
  obtain ⟨c, _, rfl⟩ := List.mem_map.mp h
  simp

lemma childrenOf_nodup (p : Code) : (childrenOf p).Nodup := by
  refine List.Nodup.map ?_ (by decide)
  intro a b hab
  simpa using List.append_cancel_left hab

lemma childrenOf_ne_nil (p : Code) : childrenOf p ≠ [] := by
  simp [childrenOf, BASE32]

lemma mergeCond_of_children (S : List Code) (err : ℚ) (cyc : ℕ) (p : Code)
    (h : ∀ x ∈ childrenOf p, x ∈ S) : mergeCond S err cyc p = true := by
  unfold mergeCond
  rw [Bool.or_eq_true]
  exact Or.inl (List.all_eq_true.mpr (fun x hx => (contains_iff_mem S x).mpr (h x hx)))

lemma skip_fold (largest smallest : ℕ) (err : ℚ) (forced : Bool) (S : List Code) (cyc : ℕ) :
    ∀ (l : List Code) (st : CycleState), (∀ g ∈ l, g.dropLast ∈ st.check) →
      l.foldl (stepCode largest smallest err forced S cyc) st
        = ⟨st.check, st.processed, st.flag || l.any (fun g => g.length == largest)⟩ := by
  intro l
  induction l with
  | nil =>
    intro st _
    cases st
    simp
  | cons g l ih =>
    intro st h
    have hg : g.dropLast ∈ st.check := h g (List.mem_cons_self _ _)
    have hstep : stepCode largest smallest err forced S cyc st g
        = ⟨st.check, st.processed, (g.length == largest) || st.flag⟩ := by
      simp only [stepCode]
      by_cases hl : largest ≤ g.length
      · rw [if_pos hl, if_neg (fun hcon => hcon.1 hg)]
      · rw [if_neg hl]
    rw [List.foldl_cons, hstep,
      ih ⟨st.check, st.processed, (g.length == largest) || st.flag⟩
        (fun x hx => h x (List.mem_cons_of_mem _ hx))]
    simp only [List.any_cons]
    congr 1
    cases st.flag <;> cases hgl : (g.length == largest) <;> simp

lemma stepCode_merge_first (largest smallest : ℕ) (err : ℚ) (forced : Bool) (S : List Code)
    (cyc : ℕ) (flagIn : Bool) (p g : Code) (hg : g ∈ childrenOf p)
    (hm : mergeCond S err cyc p = true) (hl : largest ≤ g.length) :
    stepCode largest smallest err forced S cyc ⟨[], [], flagIn⟩ g
      = ⟨[p], [p], (g.length == largest) || flagIn⟩ := by
  simp only [stepCode]
  rw [childrenOf_dropLast hg]
  rw [if_pos hl, if_pos ⟨by simp, by simp⟩, if_pos hm]
  simp [List.insert]

lemma runCycle_children (smallest : ℕ) (err : ℚ) (forced : Bool) (cyc : ℕ)
    (flagIn : Bool) (p : Code) (L : List Code)
    (hmem : ∀ x, x ∈ L ↔ x ∈ childrenOf p) (hne : L ≠ [])
    (hm : mergeCond L err cyc p = true) :
    runCycle p.length smallest err forced L cyc flagIn = ⟨[p], [p], flagIn⟩ := by
  obtain ⟨g0, rest, rfl⟩ := List.exists_cons_of_ne_nil hne
  have hg0 : g0 ∈ childrenOf p := (hmem g0).mp (List.mem_cons_self _ _)
  unfold runCycle
  rw [List.foldl_cons]
  rw [stepCode_merge_first p.length smallest err forced _ cyc flagIn p g0 hg0 hm
    (by rw [childrenOf_length hg0]; omega)]
  rw [skip_fold p.length smallest err forced _ cyc rest _ (fun g hgr => by
    rw [childrenOf_dropLast ((hmem g).mp (List.mem_cons_of_mem _ hgr))]
    exact List.mem_singleton.mpr rfl)]
  have h0 : (g0.length == p.length) = false := by
    rw [childrenOf_length hg0]
    simp
  have hrest : rest.any (fun g => g.length == p.length) = false := by
    rw [List.any_eq_false]
    intro g hgr
    rw [childrenOf_length ((hmem g).mp (List.mem_cons_of_mem _ hgr))]
    simp
  rw [h0, hrest]
  simp

lemma exists_child_ne (p : Code) : ∃ x ∈ childrenOf p.dropLast, x ≠ p := by
  by_cases h0 : p.dropLast ++ ['0'] = p
  · refine ⟨p.dropLast ++ ['1'], List.mem_map.mpr ⟨'1', by decide, rfl⟩, fun h1 => ?_⟩
    simpa using List.append_cancel_left (h1.trans h0.symm)
  · exact ⟨p.dropLast ++ ['0'], List.mem_map.mpr ⟨'0', by decide, rfl⟩, h0⟩

lemma mergeCond_singleton_false (err : ℚ) (cyc : ℕ) (hcyc : 1 ≤ cyc) (p : Code) :
    mergeCond [p] err cyc p.dropLast = false := by
  unfold mergeCond
  have hz : decide (cyc < 1) = false := by
    simp
    omega
  rw [hz, Bool.and_false, Bool.or_false]
  obtain ⟨x, hx, hne⟩ := exists_child_ne p
  rw [List.all_eq_false]
  refine ⟨x, hx, ?_⟩
  intro hcon
  exact hne (by simpa using (contains_iff_mem [p] x).mp hcon)

lemma runCycle_singleton (smallest : ℕ) (err : ℚ) (cyc : ℕ) (hcyc : 1 ≤ cyc)
    (flagIn : Bool) (p : Code) :
    runCycle p.length smallest err false [p] cyc flagIn = ⟨[p], [p], true⟩ := by
  unfold runCycle
  rw [List.foldl_cons, List.foldl_nil]
  simp only [stepCode]
  rw [if_pos (le_refl p.length), if_pos ⟨by simp, by simp⟩,
    if_neg (by rw [mergeCond_singleton_false err cyc hcyc p]; simp)]
  simp [emitCode, List.insert]

/-- Claim C1: a working set consisting exactly of the 32 children of a
parent code `p` (in any order), optimized with `largestSize = |p|` and
`errorPercent = 0`, yields exactly `{p}` — for every `smallestSize` and
`inputPrecision`. -/
theorem claim_C1 (p : Code) (smallest inputLevel : ℕ) (L : List Code)
    (hL : L.Perm (childrenOf p)) :
    optimize L p.length smallest inputLevel 0 false = some [p] := by
  have hnodup : L.Nodup := (List.Perm.nodup_iff hL).mpr (childrenOf_nodup p)
  have hmem : ∀ x, x ∈ L ↔ x ∈ childrenOf p := fun x => hL.mem_iff
  have hne : L ≠ [] := by
    intro h
    subst h
    exact childrenOf_ne_nil p (List.Perm.eq_nil hL.symm)
  have hdedup : L.dedup = L := List.dedup_eq_self.mpr hnodup
  have hm : mergeCond L 0 0 p = true :=
    mergeCond_of_children L 0 0 p (fun x hx => (hmem x).mpr hx)
  have hcyc0 : runCycle p.length smallest 0 false L 0 false = ⟨[p], [p], false⟩ :=
    runCycle_children smallest 0 false 0 false p L hmem hne hm
  unfold optimize get_optimized_geohashes
  rw [if_neg hne, hdedup]
  simp only [Option.map_some', Option.some.injEq]
  rw [optLoop.eq_def]
  simp only [hcyc0]
  by_cases hstop : cutoff p.length smallest inputLevel ≤ ((0 : ℕ) : ℤ) + 1
  · rw [if_pos (Or.inr hstop)]
  · rw [if_neg (by push_neg; exact ⟨by simp, by simpa using hstop⟩)]
    have h2 : 2 ≤ cutoff p.length smallest inputLevel := by omega
    obtain ⟨fuel', hf⟩ : ∃ k, (cutoff p.length smallest inputLevel).toNat = k + 1 :=
      ⟨(cutoff p.length smallest inputLevel).toNat - 1, by omega⟩
    rw [hf]
    show (optLoop p.length smallest inputLevel 0 false fuel' 1 false [p]).1 = [p]
    rw [optLoop.eq_def]
    simp [runCycle_singleton smallest 0 1 (le_refl 1) false p]

/-- Witness for claim C1: the 32 children of `"9q8"` with
`largestSize = 3`, `smallestSize = 5`, `inputPrecision = 4`,
`errorPercent = 0` optimize to exactly `{"9q8"}`. -/
theorem claim_C1_witness :
    optimize (childrenOf "9q8".toList) 3 5 4 0 false = some ["9q8".toList] :=
  claim_C1 "9q8".toList 5 4 (childrenOf "9q8".toList) (List.Perm.refl _)

/-! Helper lemmas for claim C4 (empty-input sentinel / non-empty results). -/

lemma stepCode_processed_mono (largest smallest : ℕ) (err : ℚ) (forced : Bool) (S : List Code)
    (cyc : ℕ) (st : CycleState) (g x : Code) (hx : x ∈ st.processed) :
    x ∈ (stepCode largest smallest err forced S cyc st g).processed := by
  simp only [stepCode]
  split <;> (try split) <;> (try split) <;> simp [List.mem_insert_iff, hx]

lemma foldl_processed_mono (largest smallest : ℕ) (err : ℚ) (forced : Bool) (S : List Code)
    (cyc : ℕ) :
    ∀ (l : List Code) (st : CycleState) (x : Code), x ∈ st.processed →
      x ∈ (l.foldl (stepCode largest smallest err forced S cyc) st).processed := by
  intro l
  induction l with
  | nil => intro st x hx; exact hx
  | cons g l ih =>
    intro st x hx
    exact ih _ x (stepCode_processed_mono largest smallest err forced S cyc st g x hx)

lemma runCycle_processed_ne_nil (largest smallest : ℕ) (err : ℚ) (forced : Bool)
    (cyc : ℕ) (flagIn : Bool) (S : List Code) (hne : S ≠ [])
    (hlen : ∀ g ∈ S, largest ≤ g.length) :
    (runCycle largest smallest err forced S cyc flagIn).processed ≠ [] := by
  obtain ⟨g0, rest, rfl⟩ := List.exists_cons_of_ne_nil hne
  unfold runCycle
  rw [List.foldl_cons]
  have hstep : ∃ y, y ∈ (stepCode largest smallest err forced (g0 :: rest) cyc
      ⟨[], [], flagIn⟩ g0).processed := by
    simp only [stepCode]
    rw [if_pos (hlen g0 (List.mem_cons_self _ _)), if_pos ⟨by simp, by simp⟩]
    split
    · exact ⟨g0.dropLast, by simp [List.mem_insert_iff]⟩
    · exact ⟨emitCode smallest forced g0, by simp [List.mem_insert_iff]⟩
  obtain ⟨y, hy⟩ := hstep
  exact List.ne_nil_of_mem
    (foldl_processed_mono largest smallest err forced (g0 :: rest) cyc rest _ y hy)

lemma stepCode_processed_cases (largest smallest : ℕ) (err : ℚ) (forced : Bool) (S : List Code)
    (cyc : ℕ) (st : CycleState) (g x : Code)
    (hx : x ∈ (stepCode largest smallest err forced S cyc st g).processed) :
    x ∈ st.processed ∨ x = g.dropLast ∨ x = emitCode smallest forced g := by
  simp only [stepCode] at hx
  split at hx
  · split at hx
    · split at hx
      · rcases List.mem_insert_iff.mp hx with h | h
        · exact Or.inr (Or.inl h)
        · exact Or.inl h
      · rcases List.mem_insert_iff.mp hx with h | h
        · exact Or.inr (Or.inr h)
        · exact Or.inl h
    · exact Or.inl hx
  · exact Or.inl hx

lemma foldl_processed_lengths (largest smallest : ℕ) (err : ℚ) (forced : Bool) (S : List Code)
    (cyc : ℕ) (hls : largest ≤ smallest) :
    ∀ (l : List Code) (st : CycleState),
      (∀ g ∈ l, largest + 1 ≤ g.length) → (∀ x ∈ st.processed, largest ≤ x.length) →
      ∀ x ∈ (l.foldl (stepCode largest smallest err forced S cyc) st).processed,
        largest ≤ x.length := by
  intro l
  induction l with
  | nil => intro st _ hst x hx; exact hst x hx
  | cons g l ih =>
    intro st hl hst x hx
    refine ih _ (fun g' hg' => hl g' (List.mem_cons_of_mem _ hg')) ?_ x hx
    intro y hy
    rcases stepCode_processed_cases largest smallest err forced S cyc st g y hy with h | h | h
    · exact hst y h
    · have := hl g (List.mem_cons_self _ _)
      rw [h, List.length_dropLast]
      omega
    · rw [h]
      unfold emitCode
      split
      · rw [List.length_take]
        have := hl g (List.mem_cons_self _ _)
        exact le_min hls (by omega)
      · have := hl g (List.mem_cons_self _ _)
        omega

lemma optLoop_ne_nil (largest smallest inputLevel : ℕ) (err : ℚ) (forced : Bool)
    (hls : largest ≤ smallest) :
    ∀ (fuel cyc : ℕ) (flagIn : Bool) (S : List Code), S ≠ [] →
      (∀ g ∈ S, largest ≤ g.length) →
      (optLoop largest smallest inputLevel err forced fuel cyc flagIn S).1 ≠ [] := by
  intro fuel
  induction fuel with
  | zero =>
    intro cyc flagIn S hne hlen
    simp only [optLoop]
    split
    · exact runCycle_processed_ne_nil largest smallest err forced cyc flagIn S hne hlen
    · exact runCycle_processed_ne_nil largest smallest err forced cyc flagIn S hne hlen
  | succ fuel ih =>
    intro cyc flagIn S hne hlen
    simp only [optLoop]
    split
    · exact runCycle_processed_ne_nil largest smallest err forced cyc flagIn S hne hlen
    · next hcond =>
      show (optLoop largest smallest inputLevel err forced fuel (cyc + 1)
        (runCycle largest smallest err forced S cyc flagIn).flag
        (runCycle largest smallest err forced S cyc flagIn).processed).1 ≠ []
      have hflag : (runCycle largest smallest err forced S cyc flagIn).flag = false :=
        Bool.eq_false_iff.mpr (not_or.mp hcond).1
      have hany : S.any (fun g => g.length == largest) = false := by
        have h := runCycle_flag largest smallest err forced S cyc flagIn
        rw [hflag] at h
        exact (Bool.or_eq_false_iff.mp h.symm).2
      have hlen' : ∀ g ∈ S, largest + 1 ≤ g.length := by
        intro g hg
        have h1 := hlen g hg
        have h2 := List.any_eq_false.mp hany g hg
        have h3 : g.length ≠ largest := by simpa using h2
        omega
      apply ih (cyc + 1) _ _
        (runCycle_processed_ne_nil largest smallest err forced cyc flagIn S hne hlen)
      intro x hx
      unfold runCycle at hx
      exact foldl_processed_lengths largest smallest err forced S cyc hls S
        ⟨[], [], flagIn⟩ hlen' (by simp) x hx

/-- Claim C4, counterexample: the non-empty input `{"9q"}` with
`largestSize = 3` produces the empty (but normal, non-sentinel) result:
codes shorter than `largestSize` are silently dropped by the cycle, so
a non-empty input does not guarantee a non-empty result. -/
theorem claim_C4_counterexample :
    ["9q".toList] ≠ ([] : List Code) ∧ optimize ["9q".toList] 3 4 4 10 false = some [] := by
  refine ⟨by decide, by decide⟩

/-- Claim C4, amended: the optimizer returns the `NotApplicable`
sentinel (Python `False`) iff the input is empty; and a non-empty input
yields a non-empty result provided every input code has length at least
`largestSize` (and `largestSize ≤ smallestSize`) — without that
proviso, codes shorter than `largestSize` are dropped and the result
can be a normal empty set. -/
theorem claim_C4 :
    (∀ (L : List Code) (largest smallest inputLevel : ℕ) (err : ℚ) (forced : Bool),
        get_optimized_geohashes L largest smallest inputLevel err forced = none ↔ L = []) ∧
    (∀ (L : List Code) (largest smallest inputLevel : ℕ) (err : ℚ) (forced : Bool),
        L ≠ [] → largest ≤ smallest → (∀ g ∈ L, largest ≤ g.length) →
        ∃ R n, get_optimized_geohashes L largest smallest inputLevel err forced = some (R, n) ∧
          R ≠ []) := by
  constructor
  · intro L largest smallest inputLevel err forced
    unfold get_optimized_geohashes
    by_cases h : L = [] <;> simp [h]
  · intro L largest smallest inputLevel err forced hne hls hlen
    unfold get_optimized_geohashes
    rw [if_neg hne]
    refine ⟨_, _, rfl, ?_⟩
    have hdne : L.dedup ≠ [] := by
      intro h
      exact hne ((List.dedup_eq_nil L).mp h)
    exact optLoop_ne_nil largest smallest inputLevel err forced hls _ 0 false L.dedup hdne
      (fun g hg => hlen g (List.mem_dedup.mp hg))

/-- Witness for claim C4 at concrete inputs. -/
theorem claim_C4_witness :
    (get_optimized_geohashes [] 3 4 4 10 false = none ↔ ([] : List Code) = []) ∧
    (∃ R n, get_optimized_geohashes ["9q8w".toList] 3 4 4 10 false = some (R, n) ∧ R ≠ []) :=
  ⟨claim_C4.1 [] 3 4 4 10 false,
    claim_C4.2 ["9q8w".toList] 3 4 4 10 false (by decide) (by decide)
      (by intro g hg; rw [List.mem_singleton.mp hg]; decide)⟩

/-! Helper lemmas for claim C8 (iteration order).  One optimizer cycle
over a working set in which no code is the parent of another is
characterised extensionally, which makes it order-independent; across
whole runs order-independence fails (see the counterexample). -/

lemma donePar_append (largest : ℕ) (M : Code → Bool) (done : List Code) (g x : Code) :
    donePar largest M (done ++ [g]) x ↔
      donePar largest M done x ∨ (largest ≤ g.length ∧ M g.dropLast = true ∧ x = g.dropLast) := by
  unfold donePar
  constructor
  · rintro ⟨g', hg', hrest⟩
    rcases List.mem_append.mp hg' with h | h
    · exact Or.inl ⟨g', h, hrest⟩
    · exact Or.inr (List.mem_singleton.mp h ▸ hrest)
  · rintro (⟨g', hg', hrest⟩ | hrest)
    · exact ⟨g', List.mem_append_left _ hg', hrest⟩
    · exact ⟨g, List.mem_append_right _ (List.mem_singleton.mpr rfl), hrest⟩

lemma doneSelf_append (largest : ℕ) (M : Code → Bool) (done : List Code) (g x : Code) :
    doneSelf largest M (done ++ [g]) x ↔
      doneSelf largest M done x ∨ (largest ≤ g.length ∧ M g.dropLast = false ∧ x = g) := by
  unfold doneSelf
  constructor
  · rintro ⟨g', hg', hrest⟩
    rcases List.mem_append.mp hg' with h | h
    · exact Or.inl ⟨g', h, hrest⟩
    · exact Or.inr (List.mem_singleton.mp h ▸ hrest)
  · rintro (⟨g', hg', hrest⟩ | hrest)
    · exact ⟨g', List.mem_append_left _ hg', hrest⟩
    · exact ⟨g, List.mem_append_right _ (List.mem_singleton.mpr rfl), hrest⟩

lemma doneEmit_append (largest smallest : ℕ) (forced : Bool) (M : Code → Bool)
    (done : List Code) (g x : Code) :
    doneEmit largest smallest forced M (done ++ [g]) x ↔
      doneEmit largest smallest forced M done x ∨
        (largest ≤ g.length ∧ M g.dropLast = false ∧ x = emitCode smallest forced g) := by
  unfold doneEmit
  constructor
  · rintro ⟨g', hg', hrest⟩
    rcases List.mem_append.mp hg' with h | h
    · exact Or.inl ⟨g', h, hrest⟩
    · exact Or.inr (List.mem_singleton.mp h ▸ hrest)
  · rintro (⟨g', hg', hrest⟩ | hrest)
    · exact ⟨g', List.mem_append_left _ hg', hrest⟩
    · exact ⟨g, List.mem_append_right _ (List.mem_singleton.mpr rfl), hrest⟩

set_option maxHeartbeats 2000000 in
lemma fold_char (largest smallest : ℕ) (err : ℚ) (forced : Bool) (S : List Code) (cyc : ℕ)
    (hnd : S.Nodup) (hpf : ∀ g ∈ S, g.dropLast ∉ S) :
    ∀ (l done : List Code) (st : CycleState), done ++ l = S →
      (∀ x, x ∈ st.check ↔
        (donePar largest (mergeCond S err cyc) done x ∨
         doneSelf largest (mergeCond S err cyc) done x)) →
      (∀ x, x ∈ st.processed ↔
        (donePar largest (mergeCond S err cyc) done x ∨
         doneEmit largest smallest forced (mergeCond S err cyc) done x)) →
      ∀ x, x ∈ (l.foldl (stepCode largest smallest err forced S cyc) st).processed ↔
        (donePar largest (mergeCond S err cyc) (done ++ l) x ∨
         doneEmit largest smallest forced (mergeCond S err cyc) (done ++ l) x) := by
  intro l
  induction l with
  | nil =>
    intro done st _ _ hproc x
    simpa using hproc x
  | cons g l ih =>
    intro done st hS hcheck hproc x
    have hgS : g ∈ S := by
      rw [← hS]
      simp
    have hdone_sub : ∀ h ∈ done, h ∈ S := by
      intro h hh
      rw [← hS]
      simp [hh]
    have hnd' : (done ++ g :: l).Nodup := by
      rw [hS]
      exact hnd
    have hgdone : g ∉ done := by
      rcases List.nodup_append.mp hnd' with ⟨_, _, hdisj⟩
      intro hgd
      exact hdisj hgd (List.mem_cons_self _ _)
    have hnotinS : g.dropLast ∉ S := hpf g hgS
    have hg_not_check : g ∉ st.check := by
      rw [hcheck g]
      rintro (⟨h, hh, _, _, hx⟩ | ⟨h, hh, _, _, hx⟩)
      · exact hpf h (hdone_sub h hh) (hx ▸ hgS)
      · exact hgdone (hx ▸ hh)
    have hS' : (done ++ [g]) ++ l = S := by
      rw [List.append_assoc]
      exact hS
    rw [List.foldl_cons]
    by_cases hlen : largest ≤ g.length
    · by_cases hskip : g.dropLast ∈ st.check
      · -- the sibling group was already merged this cycle: the code is skipped
        obtain ⟨hMg, h, hh, hlh, hdl⟩ :
            mergeCond S err cyc g.dropLast = true ∧
              ∃ h ∈ done, largest ≤ h.length ∧ h.dropLast = g.dropLast := by
          rw [hcheck] at hskip
          rcases hskip with ⟨h, hh, hlh, hM, hx⟩ | ⟨h, hh, _, _, hx⟩
          · exact ⟨by rw [hx, ← hM], h, hh, hlh, hx.symm⟩
          · exact absurd (hx ▸ hdone_sub h hh) hnotinS
        have hstep : stepCode largest smallest err forced S cyc st g
            = ⟨st.check, st.processed, (g.length == largest) || st.flag⟩ := by
          simp only [stepCode]
          rw [if_pos hlen, if_neg (fun hcon => hcon.1 hskip)]
        rw [hstep, List.append_cons]
        refine ih (done ++ [g]) _ hS' ?_ ?_ x
        · intro y
          rw [show (⟨st.check, st.processed, (g.length == largest) || st.flag⟩ :
              CycleState).check = st.check from rfl, hcheck y, donePar_append, doneSelf_append]
          have habs : (largest ≤ g.length ∧ mergeCond S err cyc g.dropLast = true ∧
              y = g.dropLast) → donePar largest (mergeCond S err cyc) done y := by
            rintro ⟨_, _, rfl⟩
            exact ⟨h, hh, hlh, by rw [hdl]; exact hMg, hdl.symm⟩
          have hnself : ¬ (largest ≤ g.length ∧ mergeCond S err cyc g.dropLast = false ∧
              y = g) := by
            rintro ⟨_, hf, _⟩
            rw [hMg] at hf
            cases hf
          tauto
        · intro y
          rw [show (⟨st.check, st.processed, (g.length == largest) || st.flag⟩ :
              CycleState).processed = st.processed from rfl, hproc y, donePar_append,
            doneEmit_append]
          have habs : (largest ≤ g.length ∧ mergeCond S err cyc g.dropLast = true ∧
              y = g.dropLast) → donePar largest (mergeCond S err cyc) done y := by
            rintro ⟨_, _, rfl⟩
            exact ⟨h, hh, hlh, by rw [hdl]; exact hMg, hdl.symm⟩
          have hnemit : ¬ (largest ≤ g.length ∧ mergeCond S err cyc g.dropLast = false ∧
              y = emitCode smallest forced g) := by
            rintro ⟨_, hf, _⟩
            rw [hMg] at hf
            cases hf
          tauto
      · by_cases hM : mergeCond S err cyc g.dropLast = true
        · -- the code merges into its parent
          have hstep : stepCode largest smallest err forced S cyc st g
              = ⟨st.check.insert g.dropLast, st.processed.insert g.dropLast,
                  (g.length == largest) || st.flag⟩ := by
            simp only [stepCode]
            rw [if_pos hlen, if_pos ⟨hskip, hg_not_check⟩, if_pos hM]
          rw [hstep, List.append_cons]
          refine ih (done ++ [g]) _ hS' ?_ ?_ x
          · intro y
            rw [show (⟨st.check.insert g.dropLast, st.processed.insert g.dropLast,
                (g.length == largest) || st.flag⟩ : CycleState).check
              = st.check.insert g.dropLast from rfl, List.mem_insert_iff, hcheck y,
              donePar_append, doneSelf_append]
            have hpar : (largest ≤ g.length ∧ mergeCond S err cyc g.dropLast = true ∧
                y = g.dropLast) ↔ y = g.dropLast := by
              constructor
              · rintro ⟨_, _, h⟩
                exact h
              · intro h
                exact ⟨hlen, hM, h⟩
            have hnself : ¬ (largest ≤ g.length ∧ mergeCond S err cyc g.dropLast = false ∧
                y = g) := by
              rintro ⟨_, hf, _⟩
              rw [hM] at hf
              cases hf
            tauto
          · intro y
            rw [show (⟨st.check.insert g.dropLast, st.processed.insert g.dropLast,
                (g.length == largest) || st.flag⟩ : CycleState).processed
              = st.processed.insert g.dropLast from rfl, List.mem_insert_iff, hproc y,
              donePar_append, doneEmit_append]
            have hpar : (largest ≤ g.length ∧ mergeCond S err cyc g.dropLast = true ∧
                y = g.dropLast) ↔ y = g.dropLast := by
              constructor
              · rintro ⟨_, _, h⟩
                exact h
              · intro h
                exact ⟨hlen, hM, h⟩
            have hnemit : ¬ (largest ≤ g.length ∧ mergeCond S err cyc g.dropLast = false ∧
                y = emitCode smallest forced g) := by
              rintro ⟨_, hf, _⟩
              rw [hM] at hf
              cases hf
            tauto
        · -- no merge: the code itself is recorded and emitted
          have hMf : mergeCond S err cyc g.dropLast = false := Bool.eq_false_iff.mpr hM
          have hstep : stepCode largest smallest err forced S cyc st g
              = ⟨st.check.insert g, st.processed.insert (emitCode smallest forced g),
                  (g.length == largest) || st.flag⟩ := by
            simp only [stepCode]
            rw [if_pos hlen, if_pos ⟨hskip, hg_not_check⟩, if_neg hM]
          rw [hstep, List.append_cons]
          refine ih (done ++ [g]) _ hS' ?_ ?_ x
          · intro y
            rw [show (⟨st.check.insert g, st.processed.insert (emitCode smallest forced g),
                (g.length == largest) || st.flag⟩ : CycleState).check
              = st.check.insert g from rfl, List.mem_insert_iff, hcheck y,
              donePar_append, doneSelf_append]
            have hself : (largest ≤ g.length ∧ mergeCond S err cyc g.dropLast = false ∧
                y = g) ↔ y = g := by
              constructor
              · rintro ⟨_, _, h⟩
                exact h
              · intro h
                exact ⟨hlen, hMf, h⟩
            have hnpar : ¬ (largest ≤ g.length ∧ mergeCond S err cyc g.dropLast = true ∧
                y = g.dropLast) := by
              rintro ⟨_, hf, _⟩
              exact hM hf
            tauto
          · intro y
            rw [show (⟨st.check.insert g, st.processed.insert (emitCode smallest forced g),
                (g.length == largest) || st.flag⟩ : CycleState).processed
              = st.processed.insert (emitCode smallest forced g) from rfl,
              List.mem_insert_iff, hproc y, donePar_append, doneEmit_append]
            have hemit : (largest ≤ g.length ∧ mergeCond S err cyc g.dropLast = false ∧
                y = emitCode smallest forced g) ↔ y = emitCode smallest forced g := by
              constructor
              · rintro ⟨_, _, h⟩
                exact h
              · intro h
                exact ⟨hlen, hMf, h⟩
            have hnpar : ¬ (largest ≤ g.length ∧ mergeCond S err cyc g.dropLast = true ∧
                y = g.dropLast) := by
              rintro ⟨_, hf, _⟩
              exact hM hf
            tauto
    · -- the code is shorter than largestSize: only the flag changes
      have hstep : stepCode largest smallest err forced S cyc st g
          = ⟨st.check, st.processed, (g.length == largest) || st.flag⟩ := by
        simp only [stepCode]
        rw [if_neg hlen]
      rw [hstep, List.append_cons]
      refine ih (done ++ [g]) _ hS' ?_ ?_ x
      · intro y
        rw [show (⟨st.check, st.processed, (g.length == largest) || st.flag⟩ :
            CycleState).check = st.check from rfl, hcheck y, donePar_append, doneSelf_append]
        have h1 : ¬ (largest ≤ g.length ∧ mergeCond S err cyc g.dropLast = true ∧
            y = g.dropLast) := fun h => hlen h.1
        have h2 : ¬ (largest ≤ g.length ∧ mergeCond S err cyc g.dropLast = false ∧
            y = g) := fun h => hlen h.1
        tauto
      · intro y
        rw [show (⟨st.check, st.processed, (g.length == largest) || st.flag⟩ :
            CycleState).processed = st.processed from rfl, hproc y, donePar_append,
          doneEmit_append]
        have h1 : ¬ (largest ≤ g.length ∧ mergeCond S err cyc g.dropLast = true ∧
            y = g.dropLast) := fun h => hlen h.1
        have h2 : ¬ (largest ≤ g.length ∧ mergeCond S err cyc g.dropLast = false ∧
            y = emitCode smallest forced g) := fun h => hlen h.1
        tauto

lemma runCycle_char (largest smallest : ℕ) (err : ℚ) (forced : Bool) (S : List Code)
    (cyc : ℕ) (flagIn : Bool) (hnd : S.Nodup) (hpf : ∀ g ∈ S, g.dropLast ∉ S) :
    ∀ x, x ∈ (runCycle largest smallest err forced S cyc flagIn).processed ↔
      (donePar largest (mergeCond S err cyc) S x ∨
       doneEmit largest smallest forced (mergeCond S err cyc) S x) := by
  intro x
  have h := fold_char largest smallest err forced S cyc hnd hpf S [] ⟨[], [], flagIn⟩
    (by simp) (by simp [donePar, doneSelf]) (by simp [donePar, doneEmit]) x
  simpa using h

lemma mergeCond_congr (S1 S2 : List Code) (err : ℚ) (cyc : ℕ)
    (h : ∀ x, x ∈ S1 ↔ x ∈ S2) (p : Code) :
    mergeCond S1 err cyc p = mergeCond S2 err cyc p := by
  have hc : (fun g : Code => S1.contains g) = (fun g : Code => S2.contains g) := by
    funext g
    have hiff : S1.contains g = true ↔ S2.contains g = true := by
      rw [contains_iff_mem, contains_iff_mem]
      exact h g
    cases h1 : S1.contains g <;> cases h2 : S2.contains g
    · rfl
    · exact absurd (hiff.mpr h2) (by rw [h1]; simp)
    · exact absurd (hiff.mp h1) (by rw [h2]; simp)
    · rfl
  unfold mergeCond
  rw [hc]

/-- Claim C8, counterexample: permuting the iteration order changes the
optimizer's result.  For the set `{"9q8w", "9q8w0"}` (a code together
with one of its children) with `largestSize = 4`,
`smallestSize = inputPrecision = 5`, `errorPercent = 0`: iterating the
parent first makes the child hit the parent-membership skip-check and
vanish, while iterating the child first emits both codes. -/
theorem claim_C8_counterexample :
    (["9q8w".toList, "9q8w0".toList] : List Code).Perm
      ["9q8w0".toList, "9q8w".toList] ∧
    optimize ["9q8w".toList, "9q8w0".toList] 4 5 5 0 false = some ["9q8w".toList] ∧
    optimize ["9q8w0".toList, "9q8w".toList] 4 5 5 0 false
      = some ["9q8w".toList, "9q8w0".toList] ∧
    "9q8w0".toList ∈ (["9q8w".toList, "9q8w0".toList] : List Code) ∧
    ¬ "9q8w0".toList ∈ (["9q8w".toList] : List Code) := by
  refine ⟨by decide, by decide, by decide, by decide, by decide⟩

/-- Claim C8, amended: a single optimizer cycle is order-independent
when no code in the working set is the parent of another code of the
set (the situation of a freshly rasterized uniform-precision set): the
emitted set and the flag agree for any two orderings.  Across a whole
run with mixed-precision sets the result can depend on the iteration
order (see the counterexample). -/
theorem claim_C8 (largest smallest : ℕ) (err : ℚ) (forced : Bool) (cyc : ℕ) (flagIn : Bool)
    (S1 S2 : List Code) (h1 : S1.Nodup) (hperm : S1.Perm S2)
    (hpf : ∀ g ∈ S1, g.dropLast ∉ S1) :
    (∀ x, x ∈ (runCycle largest smallest err forced S1 cyc flagIn).processed ↔
          x ∈ (runCycle largest smallest err forced S2 cyc flagIn).processed) ∧
    (runCycle largest smallest err forced S1 cyc flagIn).flag
      = (runCycle largest smallest err forced S2 cyc flagIn).flag := by
  have hmem : ∀ x, x ∈ S1 ↔ x ∈ S2 := fun x => hperm.mem_iff
  have h2 : S2.Nodup := (List.Perm.nodup_iff hperm).mp h1
  have hpf2 : ∀ g ∈ S2, g.dropLast ∉ S2 := fun g hg hd =>
    hpf g ((hmem g).mpr hg) ((hmem _).mpr hd)
  have hMeq : ∀ p, mergeCond S1 err cyc p = mergeCond S2 err cyc p :=
    mergeCond_congr S1 S2 err cyc hmem
  constructor
  · intro x
    rw [runCycle_char largest smallest err forced S1 cyc flagIn h1 hpf x,
      runCycle_char largest smallest err forced S2 cyc flagIn h2 hpf2 x]
    unfold donePar doneEmit
    simp only [hMeq, hmem]
  · rw [runCycle_flag, runCycle_flag]
    have hany : S1.any (fun g => g.length == largest)
        = S2.any (fun g => g.length == largest) := by
      have hiff : S1.any (fun g => g.length == largest) = true ↔
          S2.any (fun g => g.length == largest) = true := by
        rw [List.any_eq_true, List.any_eq_true]
        constructor
        · rintro ⟨g, hg, hp⟩
          exact ⟨g, (hmem g).mp hg, hp⟩
        · rintro ⟨g, hg, hp⟩
          exact ⟨g, (hmem g).mpr hg, hp⟩
      cases ha : S1.any (fun g => g.length == largest) <;>
        cases hb : S2.any (fun g => g.length == largest)
      · rfl
      · exact absurd (hiff.mpr hb) (by simp [ha])
      · exact absurd (hiff.mp ha) (by simp [hb])
      · rfl
    rw [hany]

/-- Witness for claim C8 at a concrete parent-free two-element set. -/
theorem claim_C8_witness :
    (∀ x, x ∈ (runCycle 0 1 10 false [['a'], ['b']] 0 false).processed ↔
          x ∈ (runCycle 0 1 10 false [['b'], ['a']] 0 false).processed) ∧
    (runCycle 0 1 10 false [['a'], ['b']] 0 false).flag
      = (runCycle 0 1 10 false [['b'], ['a']] 0 false).flag :=
  claim_C8 0 1 10 false 0 false [['a'], ['b']] [['b'], ['a']] (by decide) (by decide)
    (by decide)

/-! Helper lemmas for claim C10 (row-level drop_duplicates). -/

lemma dropDuplicates_sub {α : Type} :
    ∀ (l : List (α × CellVal)) (seen : List CellVal) (p : α × CellVal),
      p ∈ dropDuplicatesAux seen l → p ∈ l ∧ p.2 ∉ seen := by
  intro l
  induction l with
  | nil =>
    intro seen p hp
    simp [dropDuplicatesAux] at hp
  | cons q rest ih =>
    intro seen p hp
    simp only [dropDuplicatesAux] at hp
    split at hp
    · obtain ⟨h1, h2⟩ := ih seen p hp
      exact ⟨List.mem_cons_of_mem _ h1, h2⟩
    · next hq =>
      rcases List.mem_cons.mp hp with rfl | hp'
      · exact ⟨List.mem_cons_self _ _, hq⟩
      · obtain ⟨h1, h2⟩ := ih _ p hp'
        exact ⟨List.mem_cons_of_mem _ h1, fun hs => h2 (List.mem_cons_of_mem _ hs)⟩

lemma dropDuplicates_nodup {α : Type} :
    ∀ (l : List (α × CellVal)) (seen : List CellVal),
      ((dropDuplicatesAux seen l).map Prod.snd).Nodup := by
  intro l
  induction l with
  | nil =>
    intro seen
    simp [dropDuplicatesAux]
  | cons q rest ih =>
    intro seen
    simp only [dropDuplicatesAux]
    split
    · exact ih seen
    · rw [List.map_cons]
      refine List.nodup_cons.mpr ⟨?_, ih (q.2 :: seen)⟩
      intro hmem
      obtain ⟨p, hp, hpe⟩ := List.mem_map.mp hmem
      have h2 := (dropDuplicates_sub rest (q.2 :: seen) p hp).2
      exact h2 (hpe ▸ List.mem_cons_self _ _)

lemma dropDuplicates_find {α : Type} :
    ∀ (l : List (α × CellVal)) (seen : List CellVal) (p : α × CellVal),
      p ∈ dropDuplicatesAux seen l → l.find? (fun q => q.2 == p.2) = some p := by
  intro l
  induction l with
  | nil =>
    intro seen p hp
    simp [dropDuplicatesAux] at hp
  | cons q rest ih =>
    intro seen p hp
    simp only [dropDuplicatesAux] at hp
    split at hp
    · next hq =>
      have hps := (dropDuplicates_sub rest seen p hp).2
      have hne : (q.2 == p.2) = false := by
        refine beq_eq_false_iff_ne.mpr ?_
        intro he
        exact hps (he ▸ hq)
      rw [List.find?_cons_of_neg _ (by simp [hne]), ih seen p hp]
    · next hq =>
      rcases List.mem_cons.mp hp with rfl | hp'
      · rw [List.find?_cons_of_pos _ (by simp)]
      · have hps := (dropDuplicates_sub rest (q.2 :: seen) p hp').2
        have hne : (q.2 == p.2) = false := by
          refine beq_eq_false_iff_ne.mpr ?_
          intro he
          exact hps (he ▸ List.mem_cons_self _ _)
        rw [List.find?_cons_of_neg _ (by simp [hne]), ih _ p hp']

lemma dropDuplicates_complete {α : Type} :
    ∀ (l : List (α × CellVal)) (seen : List CellVal) (q : α × CellVal),
      q ∈ l → q.2 ∉ seen → ∃ p ∈ dropDuplicatesAux seen l, p.2 = q.2 := by
  intro l
  induction l with
  | nil =>
    intro seen q hq _
    simp at hq
  | cons r rest ih =>
    intro seen q hq hqs
    simp only [dropDuplicatesAux]
    split
    · next hr =>
      rcases List.mem_cons.mp hq with rfl | hq'
      · exact absurd hr hqs
      · exact ih seen q hq' hqs
    · next hr =>
      rcases List.mem_cons.mp hq with rfl | hq'
      · exact ⟨q, List.mem_cons_self _ _, rfl⟩
      · by_cases hqr : q.2 = r.2
        · exact ⟨r, List.mem_cons_self _ _, hqr.symm⟩
        · obtain ⟨p, hp, he⟩ := ih (r.2 :: seen) q hq' (by simp [hqs, hqr])
          exact ⟨p, List.mem_cons_of_mem _ hp, he⟩

/-- Claim C10: in the output of `geohash_optimizer`, each exploded
column value appears in at most one row (the value column is
duplicate-free); every surviving row is the first row of the exploded
table carrying its value (pandas `drop_duplicates` keeps the first
occurrence, dropping later rows together with their other column
values); and every value of the exploded table survives in exactly this
first-occurrence row. -/
theorem claim_C10 {α : Type} (rows : List (α × List Code))
    (largest smallest inputLevel : ℕ) (err : ℚ) (forced : Bool) :
    ((geohash_optimizer rows largest smallest inputLevel err forced).map Prod.snd).Nodup ∧
    (∀ p ∈ geohash_optimizer rows largest smallest inputLevel err forced,
      (explodeAll rows largest smallest inputLevel err forced).find? (fun q => q.2 == p.2)
        = some p) ∧
    (∀ q ∈ explodeAll rows largest smallest inputLevel err forced,
      ∃ p ∈ geohash_optimizer rows largest smallest inputLevel err forced, p.2 = q.2) :=
  ⟨dropDuplicates_nodup _ _,
    fun p hp => dropDuplicates_find _ _ p hp,
    fun q hq => dropDuplicates_complete _ _ q hq (by simp)⟩

/-- Witness for claim C10: two rows whose optimized lists share the
geohash `"9q8w"`; the first row survives, the second is dropped. -/
theorem claim_C10_witness :
    ((geohash_optimizer [((0 : ℕ), ["9q8w".toList]), (1, ["9q8w".toList])] 4 5 5 10 false).map
        Prod.snd).Nodup ∧
    (explodeAll [((0 : ℕ), ["9q8w".toList]), (1, ["9q8w".toList])] 4 5 5 10 false).find?
        (fun q => q.2 == ((0 : ℕ), CellVal.gh "9q8w".toList).2)
      = some ((0 : ℕ), CellVal.gh "9q8w".toList) ∧
    ∃ p ∈ geohash_optimizer [((0 : ℕ), ["9q8w".toList]), (1, ["9q8w".toList])] 4 5 5 10 false,
      p.2 = ((1 : ℕ), CellVal.gh "9q8w".toList).2 :=
  ⟨(claim_C10 [((0 : ℕ), ["9q8w".toList]), (1, ["9q8w".toList])] 4 5 5 10 false).1,
    (claim_C10 [((0 : ℕ), ["9q8w".toList]), (1, ["9q8w".toList])] 4 5 5 10 false).2.1
      ((0 : ℕ), CellVal.gh "9q8w".toList) (by decide),
    (claim_C10 [((0 : ℕ), ["9q8w".toList]), (1, ["9q8w".toList])] 4 5 5 10 false).2.2
      ((1 : ℕ), CellVal.gh "9q8w".toList) (by decide)⟩

/-! Helper lemmas for claim C6 (rasterizer coverage modes).  The BFS is
characterised extensionally: its `inner_geohashes` result is exactly
the set of cells reachable through pre-filter-passing cells that pass
both the pre-filter and the precise test. -/

lemma bfsAux_queue_nil {Cell : Type} [DecidableEq Cell] [Fintype Cell]
    (nbrs : Cell → List Cell) (pre acc : Cell → Bool) (s : BfsState Cell) :
    (polygonToGeohashesAux nbrs pre acc s).queue = [] := by
  induction s using polygonToGeohashesAux.induct nbrs pre acc with
  | case1 inn out => rw [polygonToGeohashesAux]
  | case2 c rest inn out h ih => rw [polygonToGeohashesAux, dif_pos h]; exact ih
  | case3 c rest inn out h hp ha ih =>
    rw [polygonToGeohashesAux, dif_neg h, if_pos hp, if_pos ha]; exact ih
  | case4 c rest inn out h hp ha ih =>
    rw [polygonToGeohashesAux, dif_neg h, if_pos hp, if_neg ha]; exact ih
  | case5 c rest inn out h hp ih =>
    rw [polygonToGeohashesAux, dif_neg h, if_neg hp]; exact ih

lemma bfsAux_inv {Cell : Type} [DecidableEq Cell] [Fintype Cell]
    (nbrs : Cell → List Cell) (pre acc : Cell → Bool) (seed : Cell) (s : BfsState Cell)
    (h : BfsInv nbrs pre acc seed s) :
    BfsInv nbrs pre acc seed (polygonToGeohashesAux nbrs pre acc s) := by
  induction s using polygonToGeohashesAux.induct nbrs pre acc with
  | case1 inn out =>
    rw [polygonToGeohashesAux]
    exact h
  | case2 c rest inn out hc ih =>
    rw [polygonToGeohashesAux, dif_pos hc]
    refine ih ?_
    obtain ⟨h1, h2, h3, h4, h5, h6⟩ := h
    refine ⟨h1, h2, h3, fun x hx => h4 x (List.mem_cons_of_mem _ hx), ?_, ?_⟩
    · intro v hv n hn
      rcases h5 v hv n hn with hvis | hq | hpre
      · exact Or.inl hvis
      · rcases List.mem_cons.mp hq with rfl | hq'
        · exact Or.inl hc
        · exact Or.inr (Or.inl hq')
      · exact Or.inr (Or.inr hpre)
    · rcases h6 with hvis | hq | hpre
      · exact Or.inl hvis
      · rcases List.mem_cons.mp hq with rfl | hq'
        · exact Or.inl hc
        · exact Or.inr (Or.inl hq')
      · exact Or.inr (Or.inr hpre)
  | case3 c rest inn out hc hp ha ih =>
    rw [polygonToGeohashesAux, dif_neg hc, if_pos hp, if_pos ha]
    refine ih ?_
    obtain ⟨h1, h2, h3, h4, h5, h6⟩ := h
    have hreach : Reach nbrs pre seed c := h4 c (List.mem_cons_self _ _)
    have hsub : ∀ x, x ∈ inn ∪ out → x ∈ insert c inn ∪ out := by
      intro x hx
      rw [Finset.insert_union, Finset.mem_insert]
      exact Or.inr hx
    have hcnew : c ∈ insert c inn ∪ out := by
      rw [Finset.insert_union]
      exact Finset.mem_insert_self _ _
    refine ⟨?_, h2, ?_, ?_, ?_, ?_⟩
    · intro x hx
      rcases Finset.mem_insert.mp hx with rfl | hx'
      · exact ⟨hp, ha⟩
      · exact h1 x hx'
    · intro x hx
      rw [Finset.insert_union, Finset.mem_insert] at hx
      rcases hx with rfl | hx'
      · exact hreach
      · exact h3 x hx'
    · intro x hx
      rcases List.mem_append.mp hx with hx' | hx'
      · exact h4 x (List.mem_cons_of_mem _ hx')
      · obtain ⟨hnb, _⟩ := List.mem_filter.mp hx'
        exact Reach.step hreach hp hnb
    · intro v hv n hn
      rw [Finset.insert_union, Finset.mem_insert] at hv
      rcases hv with rfl | hv'
      · by_cases hnv : n ∈ insert v inn ∪ out
        · exact Or.inl hnv
        · refine Or.inr (Or.inl (List.mem_append_right _ ?_))
          exact List.mem_filter.mpr ⟨hn, by simpa using hnv⟩
      · rcases h5 v hv' n hn with hvis | hq | hpre
        · exact Or.inl (hsub n hvis)
        · rcases List.mem_cons.mp hq with rfl | hq'
          · exact Or.inl hcnew
          · exact Or.inr (Or.inl (List.mem_append_left _ hq'))
        · exact Or.inr (Or.inr hpre)
    · rcases h6 with hvis | hq | hpre
      · exact Or.inl (hsub seed hvis)
      · rcases List.mem_cons.mp hq with rfl | hq'
        · exact Or.inl hcnew
        · exact Or.inr (Or.inl (List.mem_append_left _ hq'))
      · exact Or.inr (Or.inr hpre)
  | case4 c rest inn out hc hp ha ih =>
    rw [polygonToGeohashesAux, dif_neg hc, if_pos hp, if_neg ha]
    refine ih ?_
    obtain ⟨h1, h2, h3, h4, h5, h6⟩ := h
    have hreach : Reach nbrs pre seed c := h4 c (List.mem_cons_self _ _)
    have hsub : ∀ x, x ∈ inn ∪ out → x ∈ inn ∪ insert c out := by
      intro x hx
      rw [Finset.union_insert, Finset.mem_insert]
      exact Or.inr hx
    have hcnew : c ∈ inn ∪ insert c out := by
      rw [Finset.union_insert]
      exact Finset.mem_insert_self _ _
    have haf : acc c = false := Bool.eq_false_iff.mpr ha
    refine ⟨h1, ?_, ?_, ?_, ?_, ?_⟩
    · intro x hx
      rcases Finset.mem_insert.mp hx with rfl | hx'
      · exact ⟨hp, haf⟩
      · exact h2 x hx'
    · intro x hx
      rw [Finset.union_insert, Finset.mem_insert] at hx
      rcases hx with rfl | hx'
      · exact hreach
      · exact h3 x hx'
    · intro x hx
      rcases List.mem_append.mp hx with hx' | hx'
      · exact h4 x (List.mem_cons_of_mem _ hx')
      · obtain ⟨hnb, _⟩ := List.mem_filter.mp hx'
        exact Reach.step hreach hp hnb
    · intro v hv n hn
      rw [Finset.union_insert, Finset.mem_insert] at hv
      rcases hv with rfl | hv'
      · by_cases hnv : n ∈ inn ∪ insert v out
        · exact Or.inl hnv
        · refine Or.inr (Or.inl (List.mem_append_right _ ?_))
          exact List.mem_filter.mpr ⟨hn, by simpa using hnv⟩
      · rcases h5 v hv' n hn with hvis | hq | hpre
        · exact Or.inl (hsub n hvis)
        · rcases List.mem_cons.mp hq with rfl | hq'
          · exact Or.inl hcnew
          · exact Or.inr (Or.inl (List.mem_append_left _ hq'))
        · exact Or.inr (Or.inr hpre)
    · rcases h6 with hvis | hq | hpre
      · exact Or.inl (hsub seed hvis)
      · rcases List.mem_cons.mp hq with rfl | hq'
        · exact Or.inl hcnew
        · exact Or.inr (Or.inl (List.mem_append_left _ hq'))
      · exact Or.inr (Or.inr hpre)
  | case5 c rest inn out hc hp ih =>
    rw [polygonToGeohashesAux, dif_neg hc, if_neg hp]
    refine ih ?_
    obtain ⟨h1, h2, h3, h4, h5, h6⟩ := h
    have hpf : pre c = false := Bool.eq_false_iff.mpr hp
    refine ⟨h1, h2, h3, fun x hx => h4 x (List.mem_cons_of_mem _ hx), ?_, ?_⟩
    · intro v hv n hn
      rcases h5 v hv n hn with hvis | hq | hpre
      · exact Or.inl hvis
      · rcases List.mem_cons.mp hq with rfl | hq'
        · exact Or.inr (Or.inr hpf)
        · exact Or.inr (Or.inl hq')
      · exact Or.inr (Or.inr hpre)
    · rcases h6 with hvis | hq | hpre
      · exact Or.inl hvis
      · rcases List.mem_cons.mp hq with rfl | hq'
        · exact Or.inr (Or.inr hpf)
        · exact Or.inr (Or.inl hq')
      · exact Or.inr (Or.inr hpre)

lemma mem_polygon_to_geohashes {Cell : Type} [DecidableEq Cell] [Fintype Cell]
    (nbrs : Cell → List Cell) (pre acc : Cell → Bool) (seed : Cell) (c : Cell) :
    c ∈ polygon_to_geohashes nbrs pre acc seed ↔
      Reach nbrs pre seed c ∧ pre c = true ∧ acc c = true := by
  have hinv0 : BfsInv nbrs pre acc seed ⟨[seed], ∅, ∅⟩ := by
    refine ⟨by simp, by simp, by simp, ?_, by simp, ?_⟩
    · intro x hx
      rw [List.mem_singleton.mp hx]
      exact Reach.refl
    · exact Or.inr (Or.inl (List.mem_singleton.mpr rfl))
  have hinv := bfsAux_inv nbrs pre acc seed ⟨[seed], ∅, ∅⟩ hinv0
  have hq := bfsAux_queue_nil nbrs pre acc ⟨[seed], ∅, ∅⟩
  obtain ⟨h1, h2, h3, _, h5, h6⟩ := hinv
  constructor
  · intro hc
    obtain ⟨hp, ha⟩ := h1 c hc
    exact ⟨h3 c (Finset.mem_union_left _ hc), hp, ha⟩
  · rintro ⟨hreach, hp, ha⟩
    have hvisited : ∀ d, Reach nbrs pre seed d → pre d = true →
        d ∈ (polygonToGeohashesAux nbrs pre acc ⟨[seed], ∅, ∅⟩).innerSet ∪
          (polygonToGeohashesAux nbrs pre acc ⟨[seed], ∅, ∅⟩).outerSet := by
      intro d hd
      induction hd with
      | refl =>
        intro hps
        rcases h6 with hvis | hqm | hpre
        · exact hvis
        · rw [hq] at hqm
          cases hqm
        · rw [hps] at hpre
          cases hpre
      | step hrd hpd hnd ihd =>
        intro hpn
        rcases h5 _ (ihd hpd) _ hnd with hvis | hqm | hpre
        · exact hvis
        · rw [hq] at hqm
          cases hqm
        · rw [hpn] at hpre
          cases hpre
    have hcv := hvisited c hreach hp
    rcases Finset.mem_union.mp hcv with hin | hout
    · exact hin
    · obtain ⟨_, haf⟩ := h2 c hout
      rw [ha] at haf
      cases haf

lemma Reach_mono {Cell : Type} (nbrs : Cell → List Cell) (preT preF : Cell → Bool)
    (seed c : Cell) (hpre : ∀ c, preT c = true → preF c = true)
    (h : Reach nbrs preT seed c) : Reach nbrs preF seed c := by
  induction h with
  | refl => exact Reach.refl
  | step hrd hpd hnd ihd => exact Reach.step ihd (hpre _ hpd) hnd

/-- Claim C6: with the same seed and neighbor function, given that the
envelope/pre-filter and precise geometric tests of `inner=true` imply
those of `inner=false` (contains implies intersects), the `inner=true`
result is a subset of the `inner=false` result, hence no larger; a cell
is accepted under `inner=true` only if the polygon contains its box
(`accT`), and under `inner=false` only if it intersects it (`accF`). -/
theorem claim_C6 {Cell : Type} [DecidableEq Cell] [Fintype Cell] (nbrs : Cell → List Cell)
    (preT preF accT accF : Cell → Bool) (seed : Cell)
    (hpre : ∀ c, preT c = true → preF c = true)
    (hacc : ∀ c, accT c = true → accF c = true) :
    polygon_to_geohashes nbrs preT accT seed ⊆ polygon_to_geohashes nbrs preF accF seed ∧
    (polygon_to_geohashes nbrs preT accT seed).card
      ≤ (polygon_to_geohashes nbrs preF accF seed).card ∧
    (∀ c ∈ polygon_to_geohashes nbrs preT accT seed, accT c = true) ∧
    (∀ c ∈ polygon_to_geohashes nbrs preF accF seed, accF c = true) := by
  have hsub : polygon_to_geohashes nbrs preT accT seed
      ⊆ polygon_to_geohashes nbrs preF accF seed := by
    intro c hc
    obtain ⟨hreach, hp, ha⟩ := (mem_polygon_to_geohashes nbrs preT accT seed c).mp hc
    have hreachF : Reach nbrs preF seed c :=
      Reach_mono nbrs preT preF seed c hpre hreach
    exact (mem_polygon_to_geohashes nbrs preF accF seed c).mpr
      ⟨hreachF, hpre c hp, hacc c ha⟩
  refine ⟨hsub, Finset.card_le_card hsub, ?_, ?_⟩
  · intro c hc
    exact ((mem_polygon_to_geohashes nbrs preT accT seed c).mp hc).2.2
  · intro c hc
    exact ((mem_polygon_to_geohashes nbrs preF accF seed c).mp hc).2.2

/-- Witness for claim C6 at a concrete two-cell universe. -/
theorem claim_C6_witness :
    polygon_to_geohashes (fun _ : Bool => [true, false]) (fun _ => false) (fun _ => false) true
      ⊆ polygon_to_geohashes (fun _ : Bool => [true, false]) (fun _ => true) (fun _ => true)
        true ∧
    (polygon_to_geohashes (fun _ : Bool => [true, false]) (fun _ => false) (fun _ => false)
        true).card
      ≤ (polygon_to_geohashes (fun _ : Bool => [true, false]) (fun _ => true) (fun _ => true)
        true).card ∧
    (∀ c ∈ polygon_to_geohashes (fun _ : Bool => [true, false]) (fun _ => false)
        (fun _ => false) true, (fun _ : Bool => false) c = true) ∧
    (∀ c ∈ polygon_to_geohashes (fun _ : Bool => [true, false]) (fun _ => true)
        (fun _ => true) true, (fun _ : Bool => true) c = true) :=
  claim_C6 (fun _ : Bool => [true, false]) (fun _ => false) (fun _ => true) (fun _ => false)
    (fun _ => true) true (by decide) (by decide)

end Polygeohasher
